import Mathlib

/-
Verification of the honest weight aggregation and variance-inference engine
of the ordered forest estimator (src/orf/old/orf.py), shallowly embedded
over exact rational arithmetic.  Machine floats of the source are modelled
by ℚ; numpy arrays by lists of lists (matrices) or by functions out of ℕ
where broadcasting makes the functional view the direct transcription.
-/

namespace Orf

/-! ## ProbabilityAssembler
Transcription of BaseOrderedForest.fit lines 915-925 (the identical block
reappears in OrderedForest.predict lines 1737-1747 and twice in
OrderedForest.margin lines 2025-2049), row-wise. -/

/-- Row of `probs_0 = np.hstack((np.zeros((n_samples, 1)), probs))`:
the cumulative-probability row with a zero prepended. -/
def probs_0 (row : List ℚ) : List ℚ := 0 :: row

/-- Row of `probs_1 = np.hstack((probs, np.ones((n_samples, 1))))`:
the cumulative-probability row with a one appended. -/
def probs_1 (row : List ℚ) : List ℚ := row ++ [1]

/-- Row of `class_probs = probs_1 - probs_0`: first differences of the
padded cumulative probabilities. -/
def class_probs_raw (row : List ℚ) : List ℚ :=
  List.zipWith (fun a b => a - b) (probs_1 row) (probs_0 row)

/-- Entry-wise `class_probs[class_probs < 0] = 0`. -/
def clip_neg (l : List ℚ) : List ℚ :=
  l.map (fun x => if x < 0 then 0 else x)

/-- Row of `class_probs = class_probs / class_probs.sum(axis=1).reshape(-1, 1)`. -/
def normalize_row (l : List ℚ) : List ℚ :=
  l.map (fun x => x / l.sum)

/-- One row of the assembled class-probability matrix: difference, clip,
renormalize (fit lines 917-925). -/
def class_probs_row (row : List ℚ) : List ℚ :=
  normalize_row (clip_neg (class_probs_raw row))

/-- The assembled class-probability matrix, row by row. -/
def class_probs_matrix (probs : List (List ℚ)) : List (List ℚ) :=
  probs.map class_probs_row

/-! ## TreeWeighter
Transcription of honest_weight_numpy_out (orf.py lines 1518-1564); the
method BaseOrderedForest.honest_weight_numpy (lines 1135-1181) and the
inline body of the sequential numpy_loop strategy (fit lines 530-575) are
verbatim copies of the same numpy code.  The honest leaf-id column is
`honest`, the evaluation ("all") leaf-id column is `alls`; sample sizes
n_est and n_samples are their lengths. -/

/-- Result of `np.unique`: the sorted list of distinct values. -/
def npUnique (l : List ℕ) : List ℕ :=
  (List.insertionSort (fun a b => a ≤ b) l).dedup

/-- Result of `np.setdiff1d(a, b)`: sorted distinct values of `a` not in `b`
(membership in `b` agrees with membership in `np.unique(b)`). -/
def setdiff1d (a b : List ℕ) : List ℕ :=
  (npUnique a).filter (fun x => decide (x ∉ b))

/-- The vector `leaf_IDs_honest_ext` (lines 1528-1537): the honest leaf-id
column, extended by one synthetic entry per leaf id that appears in the
evaluation column but never in the honest column, so that both one-hot
encoders share the same category basis. -/
def leaf_IDs_honest_ext (honest alls : List ℕ) : List ℕ :=
  if npUnique honest = npUnique alls then honest
  else honest ++ setdiff1d alls honest

/-- The row sum `leaf_size = tree_out.sum(axis=1)` (line 1556) for the
evaluation observation with leaf id `a`: the entry (i,j) of
`onehot_all.dot(onehot_honest)` is 1 exactly when the leaf ids match (both
encoders use the common category basis of the extended vectors), so the row
sum counts the occurrences of `a` in the extended honest column.  Computed
before the truncation of the extra columns. -/
def leaf_size (honest alls : List ℕ) (a : ℕ) : ℚ :=
  ((leaf_IDs_honest_ext honest alls).map
    (fun hid => if a = hid then (1 : ℚ) else 0)).sum

/-- One row of `tree_out = tree_out / leaf_size` (line 1563) after the
truncation `tree_out[:n_samples, :n_est]` (line 1561) of the synthetic
columns: entry j is the leaf-match indicator against honest observation j,
divided by the (pre-truncation) row sum. -/
def weight_row (honest alls : List ℕ) (a : ℕ) : List ℚ :=
  honest.map (fun hid => (if a = hid then (1 : ℚ) else 0) / leaf_size honest alls a)

/-- The full (n_samples × n_est) weight contribution of one tree
(honest_weight_numpy_out); row i corresponds to evaluation observation i.
The slice `onehot_all[:n_samples,:]` (line 1550) keeps exactly the rows of
the original evaluation column, which is what mapping over `alls` yields. -/
def honest_weight_numpy (honest alls : List ℕ) : List (List ℚ) :=
  alls.map (weight_row honest alls)

/-! ## ForestAggregator (fit lines 441-575, 691-692)
Per-tree inputs are the pairs of leaf-id columns
(forest_apply[:, tree], forest_apply_all[:, tree]). -/

/-- Entry-wise sum of two weight matrices (`forest_out = forest_out + tree_out`). -/
def mat_add (A B : List (List ℚ)) : List (List ℚ) :=
  List.zipWith (List.zipWith (fun a b => a + b)) A B

/-- The matrix `np.zeros((n_samples, n_est))`. -/
def mat_zero (nSamples nEst : ℕ) : List (List ℚ) :=
  List.replicate nSamples (List.replicate nEst 0)

/-- Entry-wise division `forest_out / self.n_estimators` (fit line 692). -/
def mat_div (A : List (List ℚ)) (c : ℚ) : List (List ℚ) :=
  A.map (List.map (fun x => x / c))

/-- The sequential single-threaded strategy (weight_method == 'numpy_loop',
fit lines 526-575 followed by line 692): start from the zero matrix, loop
over trees adding each tree's contribution (the inline loop body is the
verbatim body of honest_weight_numpy), then divide by the ensemble size. -/
def numpy_loop_weights (trees : List (List ℕ × List ℕ))
    (nSamples nEst nEstimators : ℕ) : List (List ℚ) :=
  mat_div
    (trees.foldl (fun acc t => mat_add acc (honest_weight_numpy t.1 t.2))
      (mat_zero nSamples nEst))
    nEstimators

/-- The task-pool map-then-reduce strategy (weight_method ==
'numpy_loop_mpire', fit lines 445-470 followed by line 692): map
honest_weight_numpy over all trees collecting every per-tree matrix, sum
them centrally (`trees_out.sum(0)` starting from the preallocated zero
matrix), then divide by the ensemble size. -/
def numpy_loop_mpire_weights (trees : List (List ℕ × List ℕ))
    (nSamples nEst nEstimators : ℕ) : List (List ℚ) :=
  mat_div
    ((trees.map (fun t => honest_weight_numpy t.1 t.2)).foldl mat_add
      (mat_zero nSamples nEst))
    nEstimators

/-! ## MarginalEffectEngine: perturbed evaluation points
Transcription of OrderedForest.margin lines 1890-1945, per covariate column,
for the one-row evaluation-point case (eval_point == "atmean").  The numpy
standard deviation np.std(X_est, ddof=1) is irrational over ℚ and enters the
arithmetic only as an opaque value, so it is taken as the parameter `s`
(with 0 ≤ s, and s = 0 exactly for a constant honest column); the column
means, minima and maxima are computed. -/

/-- Unique-value count of a column (margin lines 1891-1892): sort the column
and add 1 to the number of positions where adjacent sorted entries differ. -/
def n_unique (col : List ℚ) : ℕ :=
  (List.zipWith (fun a b => if a ≠ b then 1 else 0)
    (List.insertionSort (fun a b => a ≤ b) col).tail
    (List.insertionSort (fun a b => a ≤ b) col)).sum + 1

/-- The constant-covariate test `np.any(n_unique <= 1)` (margin line 1896). -/
def margin_constant_check (evalCols : List (List ℚ)) : Bool :=
  evalCols.any (fun c => decide (n_unique c ≤ 1))

/-- Result of `np.mean` on a column. -/
def col_mean (col : List ℚ) : ℚ := col.sum / col.length

/-- Result of `np.min` on a column. -/
def col_min (col : List ℚ) : ℚ :=
  match col with
  | [] => 0
  | a :: t => t.foldl min a

/-- Result of `np.max` on a column. -/
def col_max (col : List ℚ) : ℚ :=
  match col with
  | [] => 0
  | a :: t => t.foldl max a

/-- The raw up value `X_up = X_mean + h_std * X_sd` (margin line 1917). -/
def x_up_0 (m s h : ℚ) : ℚ := m + h * s

/-- Clipping of the up value against the maximum (margin line 1930). -/
def x_up_1 (m s mx h : ℚ) : ℚ :=
  if x_up_0 m s h < mx then x_up_0 m s h else mx

/-- Clipping of the up value against the minimum (margin line 1931). -/
def clip_up (m s mn mx h : ℚ) : ℚ :=
  if x_up_1 m s mx h > mn then x_up_1 m s mx h else mn + h * s

/-- The raw down value `X_down = X_mean - h_std * X_sd` (margin line 1919). -/
def x_down_0 (m s h : ℚ) : ℚ := m - h * s

/-- Clipping of the down value against the minimum (margin line 1933). -/
def x_down_1 (m s mn h : ℚ) : ℚ :=
  if x_down_0 m s h > mn then x_down_0 m s h else mn

/-- Clipping of the down value against the maximum (margin lines 1934-1935). -/
def clip_down (m s mn mx h : ℚ) : ℚ :=
  if x_down_1 m s mn h < mx then x_down_1 m s mn h else mx - h * s

/-- Entry semantics of the masked coincidence adjustment (margin lines
1937-1945): guarded by `np.any(X_up == X_down)` (for the one-entry case,
the entry coincidence itself), X_up is updated first through the masks
`(X_up > X_down)` / `(X_up == X_down)`, then X_down through the same masks
evaluated against the already-updated X_up, then both are re-clipped
against the maximum and minimum respectively. -/
def adjust_updown (s mn mx h u d : ℚ) : ℚ × ℚ :=
  if u = d then
    ((fun u1 =>
      ((fun d1 =>
        (if u1 < mx then u1 else mx, if d1 > mn then d1 else mn))
        (if u1 > d then d else if u1 = d then d - h * s / 2 else 0)))
      (if u > d then u else if u = d then u + h * s / 2 else 0))
  else (u, d)

/-- Composition of the up/down clipping and the coincidence adjustment for
one covariate column. -/
def margin_updown (m s mn mx h : ℚ) : ℚ × ℚ :=
  adjust_updown s mn mx h (clip_up m s mn mx h) (clip_down m s mn mx h)

/-- The evaluation-point stage of margin with the constant-covariate check
(lines 1890-1945): the ValueError of line 1898 is modelled as Except.error
and is decided before any evaluation point or perturbed value is assembled,
which the Except structure makes explicit. -/
def margin_perturbations (evalCols estCols : List (List ℚ)) (sds : List ℚ)
    (h : ℚ) : Except String (List (ℚ × ℚ)) :=
  if margin_constant_check evalCols then
    Except.error "Some of the covariates are constant. This is not allowed for evaluation of marginal effects. Programme terminated."
  else
    Except.ok ((List.range evalCols.length).map (fun c =>
      margin_updown (col_mean (evalCols.getD c [])) (sds.getD c 0)
        (col_min (estCols.getD c [])) (col_max (estCols.getD c [])) h))

/-! ## VarianceEstimator
Transcription of BaseOrderedForest.honest_variance (orf.py lines 1238-1311).
The numpy matrices are embedded as functions: `probs i k` is the prediction
matrix entry (row i, 0-based cut-point column k), `weights cls i j` the
per-cut-point weight matrices (dictionary key cls = 1..nclass-1), and
`outcome cls j` the honest binary outcome vectors; `m` is the honest width
(the length of axis 1 summed over by np.sum(..., axis=1)), `n` the sample
size passed as n_est. -/

/-- The scaling n_est/(n_est-1) (Python true division of integers). -/
def nn1 (n : ℕ) : ℚ := (n : ℚ) / ((n : ℚ) - 1)

/-- Entry of `honest_pred_mean = probs[:, class_idx-1] / n_est` (line 1247). -/
def honest_pred_mean (probs : ℕ → ℕ → ℚ) (n : ℕ) (cls i : ℕ) : ℚ :=
  probs i (cls - 1) / (n : ℚ)

/-- Entry of `honest_multi = np.multiply(weights[cls], outcome_binary[cls])`
(line 1250), broadcasting the outcome row vector over the rows. -/
def honest_multi (weights : ℕ → ℕ → ℕ → ℚ) (outcome : ℕ → ℕ → ℚ)
    (cls i j : ℕ) : ℚ :=
  weights cls i j * outcome cls j

/-- Entry of `honest_multi_demeaned[cls] = honest_multi - honest_pred_mean`
(line 1253). -/
def honest_multi_demeaned (probs : ℕ → ℕ → ℚ) (weights : ℕ → ℕ → ℕ → ℚ)
    (outcome : ℕ → ℕ → ℚ) (n : ℕ) (cls i j : ℕ) : ℚ :=
  honest_multi weights outcome cls i j - honest_pred_mean probs n cls i

/-- Entry of `honest_variance[cls]` (lines 1255-1262): square the de-meaned
matrix, sum over the honest axis, multiply by n_est/(n_est-1). -/
def honest_variance_cls (probs : ℕ → ℕ → ℚ) (weights : ℕ → ℕ → ℕ → ℚ)
    (outcome : ℕ → ℕ → ℚ) (n m : ℕ) (cls i : ℕ) : ℚ :=
  (∑ j ∈ Finset.range m,
    (honest_multi_demeaned probs weights outcome n cls i j) ^ 2) * nn1 n

/-- Entry of `honest_multi_demeaned_0_last` (lines 1266-1268): the de-meaned
dictionary with a zero matrix postpended at key nclass. -/
def demeaned_0_last (probs : ℕ → ℕ → ℚ) (weights : ℕ → ℕ → ℕ → ℚ)
    (outcome : ℕ → ℕ → ℚ) (nclass n : ℕ) (cls i j : ℕ) : ℚ :=
  if cls = nclass then 0
  else honest_multi_demeaned probs weights outcome n cls i j

/-- Entry of `honest_multi_demeaned_0_first` (lines 1270-1276): a zero matrix
at key 1, the de-meaned matrices shifted up by one key. -/
def demeaned_0_first (probs : ℕ → ℕ → ℚ) (weights : ℕ → ℕ → ℕ → ℚ)
    (outcome : ℕ → ℕ → ℚ) (n : ℕ) (cls i j : ℕ) : ℚ :=
  if cls = 1 then 0
  else honest_multi_demeaned probs weights outcome n (cls - 1) i j

/-- Entry of `honest_covariance[cls]` (lines 1280-1290): elementwise product
of the shifted de-meaned matrices, summed over the honest axis, times
2·n_est/(n_est-1). -/
def honest_covariance (probs : ℕ → ℕ → ℚ) (weights : ℕ → ℕ → ℕ → ℚ)
    (outcome : ℕ → ℕ → ℚ) (nclass n m : ℕ) (cls i : ℕ) : ℚ :=
  (∑ j ∈ Finset.range m,
    demeaned_0_first probs weights outcome n cls i j *
      demeaned_0_last probs weights outcome nclass n cls i j) * 2 * nn1 n

/-- Entry of `honest_variance_last` (lines 1294-1295): the per-cut-point
variances with a zero matrix postpended at key nclass. -/
def honest_variance_last (probs : ℕ → ℕ → ℚ) (weights : ℕ → ℕ → ℕ → ℚ)
    (outcome : ℕ → ℕ → ℚ) (nclass n m : ℕ) (cls i : ℕ) : ℚ :=
  if cls = nclass then 0
  else honest_variance_cls probs weights outcome n m cls i

/-- Entry of `honest_variance_first` (lines 1297-1301): a zero matrix at key
1, the per-cut-point variances shifted up by one key. -/
def honest_variance_first (probs : ℕ → ℕ → ℚ) (weights : ℕ → ℕ → ℕ → ℚ)
    (outcome : ℕ → ℕ → ℚ) (n m : ℕ) (cls i : ℕ) : ℚ :=
  if cls = 1 then 0
  else honest_variance_cls probs weights outcome n m (cls - 1) i

/-- Column cls-1 of `honest_variance_final` (lines 1303-1310):
var_last + var_first - cov, for cls = 1..nclass. -/
def honest_variance_final (probs : ℕ → ℕ → ℚ) (weights : ℕ → ℕ → ℕ → ℚ)
    (outcome : ℕ → ℕ → ℚ) (nclass n m : ℕ) (cls i : ℕ) : ℚ :=
  honest_variance_last probs weights outcome nclass n m cls i +
    honest_variance_first probs weights outcome n m cls i -
    honest_covariance probs weights outcome nclass n m cls i

/-! Spec-side formulation of the variance identity, written from the claim:
de-meaned matrix d_k = W_k∘y_k − p_k/n with d_0 = d_nclass = 0, per-class
Var_k = (n/(n−1))·Σ_j d_k², Cov_k = 2·(n/(n−1))·Σ_j d_{k−1}·d_k, and
Var(class_k) = Var_k + Var_{k−1} − Cov_k with zero variance and covariance
contributed at the boundary cut-points k = 0 and k = nclass. -/

def spec_demeaned (probs : ℕ → ℕ → ℚ) (weights : ℕ → ℕ → ℕ → ℚ)
    (outcome : ℕ → ℕ → ℚ) (nclass n : ℕ) (cls i j : ℕ) : ℚ :=
  if cls = 0 ∨ cls = nclass then 0
  else weights cls i j * outcome cls j - probs i (cls - 1) / (n : ℚ)

def spec_Var (probs : ℕ → ℕ → ℚ) (weights : ℕ → ℕ → ℕ → ℚ)
    (outcome : ℕ → ℕ → ℚ) (nclass n m : ℕ) (cls i : ℕ) : ℚ :=
  if cls = 0 ∨ cls = nclass then 0
  else nn1 n * ∑ j ∈ Finset.range m,
    (weights cls i j * outcome cls j - probs i (cls - 1) / (n : ℚ)) ^ 2

def spec_Cov (probs : ℕ → ℕ → ℚ) (weights : ℕ → ℕ → ℕ → ℚ)
    (outcome : ℕ → ℕ → ℚ) (nclass n m : ℕ) (cls i : ℕ) : ℚ :=
  2 * nn1 n * ∑ j ∈ Finset.range m,
    spec_demeaned probs weights outcome nclass n (cls - 1) i j *
      spec_demeaned probs weights outcome nclass n cls i j

/-! ## Fit-time inference: independent subset variances and reassembly
Transcription of BaseOrderedForest.fit lines 934-957: the honest-subset and
training-subset variances are computed by two independent honest_variance
calls on the sliced matrices, each passing its own sample size
(n_est = len(ind_est), n_tr = len(ind_tr)), stacked honest-above-train and
reordered by `variance[ind_all.argsort(), :]` with
ind_all = np.hstack((ind_est, ind_tr)). -/

/-- Result of `np.argsort` on a vector of distinct keys: the list of
positions sorted by key (ties impossible for the permutations used here, so
sort stability is irrelevant). -/
def argsort (l : List ℕ) : List ℕ :=
  List.insertionSort (fun a b => l.getD a 0 ≤ l.getD b 0) (List.range l.length)

/-- Row fancy-indexing `A[idx, :]`. -/
def np_take (A : List (List ℚ)) (idx : List ℕ) : List (List ℚ) :=
  idx.map (fun j => A.getD j [])

/-- The reordering `variance[ind_all.argsort(), :]` (fit line 957). -/
def sort_rows_by (A : List (List ℚ)) (ind_all : List ℕ) : List (List ℚ) :=
  np_take A (argsort ind_all)

/-- Materialized rows of honest_variance applied to the subset slice `idx`
(fit lines 936-942 resp. 944-951): row r is the variance row of original
observation `idx[r]`, computed inside its own subset with its own sample
size n = idx.length as the n of the n/(n-1) scaling. -/
def honest_variance_rows (probs : ℕ → ℕ → ℚ) (weights : ℕ → ℕ → ℕ → ℚ)
    (outcome : ℕ → ℕ → ℚ) (nclass m : ℕ) (idx : List ℕ) : List (List ℚ) :=
  (List.range idx.length).map (fun r =>
    (List.range nclass).map (fun k =>
      honest_variance_final (fun r' k' => probs (idx.getD r' 0) k')
        (fun c r' j => weights c (idx.getD r' 0) j)
        outcome nclass idx.length m (k + 1) r))

/-- The final fit-time variance matrix (fit lines 934-957): stack the two
independently computed subset variance matrices and restore the original
observation order through the argsort of the concatenated index partition. -/
def fit_variance (probs : ℕ → ℕ → ℚ) (weights : ℕ → ℕ → ℕ → ℚ)
    (outcome : ℕ → ℕ → ℚ) (nclass m : ℕ) (ind_est ind_tr : List ℕ) :
    List (List ℚ) :=
  sort_rows_by
    (honest_variance_rows probs weights outcome nclass m ind_est ++
      honest_variance_rows probs weights outcome nclass m ind_tr)
    (ind_est ++ ind_tr)

/-! Concrete example inputs used by witnesses. -/

def probs_ex : ℕ → ℕ → ℚ := fun i k => (i : ℚ) / 7 + (k : ℚ) / 5 + 1 / 3

def weights_ex : ℕ → ℕ → ℕ → ℚ := fun c i j => 1 / ((c : ℚ) + (i : ℚ) + (j : ℚ) + 1)

def outcome_ex : ℕ → ℕ → ℚ := fun c j => if (j + c) % 2 = 0 then 1 else 0

/-! ## OrderedForest.predict, X-replacement
Transcription of predict lines 1664-1679 and 1712-1718 for prob=True: the
fitted state carries the matrices stored by fit (lines 967-977); the new-data
path (lines 1724-1768: leaf index, weights, probabilities, variance) is kept
abstract as a parameter since the claim is that it is never run. -/

structure OrfFitted where
  X_fit : List (List ℚ)
  probs : List (List ℚ)
  variance : List (List ℚ)

/-- Normalization of the X argument (predict lines 1664-1677): a provided X
that is element-wise equal to the fitted X (np.array_equal: same shape, same
entries — list equality) is silently replaced by None. -/
def predict_X_arg (st : OrfFitted) (X : Option (List (List ℚ))) :
    Option (List (List ℚ)) :=
  match X with
  | some x => if x = st.X_fit then none else some x
  | none => none

/-- Dispatch of predict for prob=True (lines 1713-1718, 1724-1768): X=None
returns the stored in-sample class probabilities and variances unchanged;
otherwise the new-data pipeline `newdata` runs on X. -/
def predict (st : OrfFitted)
    (newdata : List (List ℚ) → List (List ℚ) × List (List ℚ))
    (X : Option (List (List ℚ))) : List (List ℚ) × List (List ℚ) :=
  match predict_X_arg st X with
  | none => (st.probs, st.variance)
  | some x => newdata x

end Orf

namespace Orf

/-! ### Helper lemmas for the assembler -/

theorem sum_zipWith_sub_aux (t : List ℚ) (b : ℚ) :
    (List.zipWith (fun a b => a - b) (t ++ [1]) (b :: t)).sum = 1 - b := by
  induction t generalizing b with
  | nil => simp
  | cons a t ih =>
    simp only [List.cons_append, List.zipWith_cons_cons, List.sum_cons, ih a]
    ring

/-- The raw first differences of a padded cumulative row telescope to 1. -/
theorem sum_class_probs_raw (row : List ℚ) : (class_probs_raw row).sum = 1 := by
  have h := sum_zipWith_sub_aux row 0
  simpa [class_probs_raw, probs_0, probs_1] using h

theorem clip_neg_nonneg (l : List ℚ) : ∀ x ∈ clip_neg l, 0 ≤ x := by
  intro x hx
  simp only [clip_neg, List.mem_map] at hx
  obtain ⟨a, _, rfl⟩ := hx
  by_cases h : a < 0
  · simp [h]
  · simp only [h, if_false]
    linarith

theorem sum_le_sum_clip_neg (l : List ℚ) : l.sum ≤ (clip_neg l).sum := by
  induction l with
  | nil => simp [clip_neg]
  | cons a t ih =>
    simp only [clip_neg, List.map_cons, List.sum_cons] at *
    by_cases h : a < 0
    · simp only [h, if_true]
      linarith
    · simp only [h, if_false]
      linarith

theorem sum_map_div (l : List ℚ) (c : ℚ) :
    (l.map (fun x => x / c)).sum = l.sum / c := by
  induction l with
  | nil => simp
  | cons a t ih => simp [ih, add_div]

/-- After differencing and clipping, every row sum is at least 1. -/
theorem one_le_clipped_sum (row : List ℚ) :
    1 ≤ (clip_neg (class_probs_raw row)).sum := by
  have h1 := sum_class_probs_raw row
  have h2 := sum_le_sum_clip_neg (class_probs_raw row)
  linarith

/-- C3: for every cumulative-probability input row, including non-monotonic
ones, the assembled class-probability row sums exactly to 1 (hence within
1e-9) and contains no negative entry. -/
theorem class_probs_row_sum_one_and_nonneg (row : List ℚ) :
    (class_probs_row row).sum = 1 ∧ ∀ x ∈ class_probs_row row, 0 ≤ x := by
  set c := clip_neg (class_probs_raw row) with hc
  have hpos : 0 < c.sum := lt_of_lt_of_le one_pos (one_le_clipped_sum row)
  constructor
  · have : (class_probs_row row).sum = c.sum / c.sum := by
      simp [class_probs_row, normalize_row, ← hc, sum_map_div]
    rw [this, div_self (ne_of_gt hpos)]
  · intro x hx
    simp only [class_probs_row, normalize_row, ← hc, List.mem_map] at hx
    obtain ⟨a, ha, rfl⟩ := hx
    exact div_nonneg (clip_neg_nonneg _ a ha) (le_of_lt hpos)

/-- C4: the failure condition of the class-probability assembly (a row of
the differenced-and-clipped matrix summing to exactly zero) is unsatisfiable:
every clipped row sum is at least 1, hence nonzero, so the normalization at
fit line 925 (and predict line 1747) never divides by zero and the assembly
returns normally on every input; the biconditional of the claim holds with
both sides false. -/
theorem clipped_row_sum_never_zero (row : List ℚ) :
    1 ≤ (clip_neg (class_probs_raw row)).sum ∧
      (clip_neg (class_probs_raw row)).sum ≠ 0 := by
  refine ⟨one_le_clipped_sum row, ?_⟩
  have := one_le_clipped_sum row
  intro h
  rw [h] at this
  exact absurd this (by norm_num)

/-- C7: the single-row non-monotonic cumulative input [[0.9, 0.3]] assembles
to exactly [[0.9/1.6, 0, 0.7/1.6]] = [[9/16, 0, 7/16]]. -/
theorem class_probs_nonmonotonic_example :
    class_probs_matrix [[9/10, 3/10]] = [[9/16, 0, 7/16]] := by
  norm_num [class_probs_matrix, class_probs_row, class_probs_raw, probs_0,
    probs_1, clip_neg, normalize_row]

/-! ### Helper lemmas for the tree weighter -/

theorem mem_npUnique {a : ℕ} {l : List ℕ} : a ∈ npUnique l ↔ a ∈ l := by
  rw [npUnique, List.mem_dedup]
  exact (List.perm_insertionSort _ l).mem_iff

theorem nodup_setdiff1d (a b : List ℕ) : (setdiff1d a b).Nodup :=
  (List.nodup_dedup _).filter _

theorem mem_setdiff1d {x : ℕ} {a b : List ℕ} :
    x ∈ setdiff1d a b ↔ x ∈ a ∧ x ∉ b := by
  simp [setdiff1d, List.mem_filter, mem_npUnique]

theorem sum_map_indicator (a : ℕ) (l : List ℕ) :
    (l.map (fun hid => if a = hid then (1 : ℚ) else 0)).sum = (l.count a : ℚ) := by
  induction l with
  | nil => simp
  | cons hid t ih =>
    simp only [List.map_cons, List.sum_cons, ih, List.count_cons]
    by_cases h : a = hid
    · simp [h]
      ring
    · have hne : ¬(hid == a) = true := by
        simp [beq_iff_eq]
        exact fun hh => h hh.symm
      simp [h, hne]

theorem leaf_size_eq_count (honest alls : List ℕ) (a : ℕ) :
    leaf_size honest alls a = ((leaf_IDs_honest_ext honest alls).count a : ℚ) :=
  sum_map_indicator a _

theorem leaf_size_of_mem {honest alls : List ℕ} {a : ℕ} (h : a ∈ honest) :
    leaf_size honest alls a = (honest.count a : ℚ) := by
  rw [leaf_size_eq_count, leaf_IDs_honest_ext]
  split_ifs with heq
  · rfl
  · rw [List.count_append]
    have h0 : (setdiff1d alls honest).count a = 0 :=
      List.count_eq_zero.mpr (fun hmem => (mem_setdiff1d.mp hmem).2 h)
    simp [h0]

theorem leaf_size_of_not_mem {honest alls : List ℕ} {a : ℕ}
    (ha : a ∈ alls) (h : a ∉ honest) : leaf_size honest alls a = 1 := by
  rw [leaf_size_eq_count, leaf_IDs_honest_ext]
  split_ifs with heq
  · exact absurd (mem_npUnique.mp (heq ▸ mem_npUnique.mpr ha)) h
  · rw [List.count_append]
    have h1 : honest.count a = 0 := List.count_eq_zero.mpr h
    have h2 : (setdiff1d alls honest).count a = 1 :=
      List.count_eq_one_of_mem (nodup_setdiff1d _ _) (mem_setdiff1d.mpr ⟨ha, h⟩)
    simp [h1, h2]

theorem weight_row_sum_eq (honest alls : List ℕ) (a : ℕ) :
    (weight_row honest alls a).sum = (honest.count a : ℚ) / leaf_size honest alls a := by
  have hmm : weight_row honest alls a =
      (honest.map (fun hid => if a = hid then (1 : ℚ) else 0)).map
        (fun x => x / leaf_size honest alls a) := by
    rw [weight_row, List.map_map]
    rfl
  rw [hmm, sum_map_div, sum_map_indicator]

/-- C1: for every honest/evaluation leaf-id column pair and every evaluation
observation, the leaf size the row is divided by is strictly positive (so no
division by zero occurs), and the row of the tree's weight contribution sums
to 1 when the observation's leaf contains at least one honest observation
and to 0 when it contains none; the row really is a row of the tree's
weight-contribution matrix. -/
theorem tree_weight_row_sum (honest alls : List ℕ) (a : ℕ) (ha : a ∈ alls) :
    0 < leaf_size honest alls a ∧
    (weight_row honest alls a).sum = (if a ∈ honest then 1 else 0) ∧
    weight_row honest alls a ∈ honest_weight_numpy honest alls := by
  by_cases h : a ∈ honest
  · have hcount : 0 < honest.count a := List.count_pos_iff.mpr h
    have hls : leaf_size honest alls a = (honest.count a : ℚ) := leaf_size_of_mem h
    have hpos : (0 : ℚ) < leaf_size honest alls a := by
      rw [hls]
      exact_mod_cast hcount
    refine ⟨hpos, ?_, List.mem_map.mpr ⟨a, ha, rfl⟩⟩
    rw [weight_row_sum_eq, hls, if_pos h]
    exact div_self (by exact_mod_cast Nat.pos_iff_ne_zero.mp hcount)
  · have hls : leaf_size honest alls a = 1 := leaf_size_of_not_mem ha h
    refine ⟨by rw [hls]; norm_num, ?_, List.mem_map.mpr ⟨a, ha, rfl⟩⟩
    rw [weight_row_sum_eq, hls, if_neg h]
    have h0 : honest.count a = 0 := List.count_eq_zero.mpr h
    rw [h0]
    norm_num

/-- Witness for C1 at the spec scenario honest=[0,0,1,1], eval=[0,1]. -/
theorem tree_weight_row_sum_witness :
    (0 : ℕ) ∈ [0, 1] ∧
    (0 < leaf_size [0, 0, 1, 1] [0, 1] 0 ∧
     (weight_row [0, 0, 1, 1] [0, 1] 0).sum = (if (0 : ℕ) ∈ [0, 0, 1, 1] then 1 else 0) ∧
     weight_row [0, 0, 1, 1] [0, 1] 0 ∈ honest_weight_numpy [0, 0, 1, 1] [0, 1]) :=
  ⟨by decide, tree_weight_row_sum [0, 0, 1, 1] [0, 1] 0 (by decide)⟩

/-- C5: on the same per-tree leaf-id inputs and tree count, the sequential
single-threaded accumulation (numpy_loop) and the task-pool map-then-reduce
(numpy_loop_mpire) strategies produce the same forest weight matrix — the
sum of the identical per-tree contributions divided by the ensemble size —
exactly, over exact arithmetic. -/
theorem numpy_loop_eq_numpy_loop_mpire (trees : List (List ℕ × List ℕ))
    (nSamples nEst nEstimators : ℕ) :
    numpy_loop_weights trees nSamples nEst nEstimators
      = numpy_loop_mpire_weights trees nSamples nEst nEstimators := by
  unfold numpy_loop_weights numpy_loop_mpire_weights
  rw [List.foldl_map]

/-! ### Helper lemmas for margin -/

theorem adjacent_sum_zero_iff (s : List ℚ) :
    (List.zipWith (fun a b => if a ≠ b then 1 else 0) s.tail s).sum = 0 ↔
      ∀ x ∈ s, ∀ y ∈ s, x = y := by
  induction s with
  | nil => simp
  | cons a t ih =>
    cases t with
    | nil => simp
    | cons b t2 =>
      simp only [List.tail_cons, List.zipWith_cons_cons, List.sum_cons] at *
      constructor
      · intro hsum
        have hba : b = a := by
          by_contra hne
          simp [hne] at hsum
        have ht : (List.zipWith (fun a b => if a ≠ b then 1 else 0) t2 (b :: t2)).sum = 0 := by
          omega
        have hall := ih.mp ht
        intro x hx y hy
        rcases List.mem_cons.mp hx with rfl | hx2
        · rcases List.mem_cons.mp hy with rfl | hy2
          · rfl
          · exact (hba ▸ hall x (by exact hba ▸ List.mem_cons_self _ _) y hy2).symm ▸
              (hall b (List.mem_cons_self _ _) y hy2) ▸ hba.symm
        · rcases List.mem_cons.mp hy with rfl | hy2
          · exact (hall x hx2 b (List.mem_cons_self _ _)).trans hba
          · exact hall x hx2 y hy2
      · intro hall
        have hba : b = a := hall b (by simp) a (by simp)
        subst hba
        have ht : ∀ x ∈ b :: t2, ∀ y ∈ b :: t2, x = y :=
          fun x hx y hy => hall x (List.mem_cons_of_mem b hx) y (List.mem_cons_of_mem b hy)
        rw [if_neg (fun hcon => hcon rfl), ih.mpr ht]

theorem n_unique_le_one_iff (col : List ℚ) :
    n_unique col ≤ 1 ↔ ∀ x ∈ col, ∀ y ∈ col, x = y := by
  have hmem : ∀ x : ℚ, x ∈ List.insertionSort (fun a b : ℚ => a ≤ b) col ↔ x ∈ col :=
    fun x => (List.perm_insertionSort (fun a b : ℚ => a ≤ b) col).mem_iff
  rw [n_unique]
  constructor
  · intro hle x hx y hy
    have hz : (List.zipWith (fun a b => if a ≠ b then 1 else 0)
        (List.insertionSort (fun a b => a ≤ b) col).tail
        (List.insertionSort (fun a b => a ≤ b) col)).sum = 0 := by omega
    exact (adjacent_sum_zero_iff _).mp hz x ((hmem x).mpr hx) y ((hmem y).mpr hy)
  · intro hall
    have hz := (adjacent_sum_zero_iff
        (List.insertionSort (fun a b : ℚ => a ≤ b) col)).mpr
      (fun x hx y hy => hall x ((hmem x).mp hx) y ((hmem y).mp hy))
    omega

/-- C9: the margin evaluation-point stage reports the fatal configuration
error exactly when some evaluation column has at most one unique value (zero
variance); in the error case the Except value carries no perturbed points,
so the error is reported before any evaluation point, perturbed value or
downstream quantity is computed. -/
theorem margin_error_iff_constant_column (evalCols estCols : List (List ℚ))
    (sds : List ℚ) (h : ℚ) :
    (∃ msg, margin_perturbations evalCols estCols sds h = Except.error msg) ↔
      ∃ col ∈ evalCols, ∀ x ∈ col, ∀ y ∈ col, x = y := by
  rw [margin_perturbations]
  constructor
  · intro hex
    split_ifs at hex with hchk
    · rw [margin_constant_check, List.any_eq_true] at hchk
      obtain ⟨col, hcol, hle⟩ := hchk
      exact ⟨col, hcol, (n_unique_le_one_iff col).mp (by simpa using hle)⟩
    · obtain ⟨msg, hmsg⟩ := hex
      exact absurd hmsg (by simp)
  · intro ⟨col, hcol, hconst⟩
    have hchk : margin_constant_check evalCols = true := by
      rw [margin_constant_check, List.any_eq_true]
      exact ⟨col, hcol, by simpa using (n_unique_le_one_iff col).mpr hconst⟩
    rw [if_pos hchk]
    exact ⟨_, rfl⟩

/-- Witness for C9 at a constant evaluation column. -/
theorem margin_error_iff_constant_column_witness :
    (∃ msg, margin_perturbations [[2, 2]] [[0, 1]] [1] (1/10) = Except.error msg) ↔
      ∃ col ∈ [[(2 : ℚ), 2]], ∀ x ∈ col, ∀ y ∈ col, x = y :=
  margin_error_iff_constant_column [[2, 2]] [[0, 1]] [1] (1/10)

theorem clip_up_le_max {m mn mx h : ℚ} (hrange : mn ≤ mx) :
    clip_up m 0 mn mx h ≤ mx := by
  unfold clip_up x_up_1 x_up_0
  split_ifs <;> linarith

theorem clip_down_ge_min {m mn mx h : ℚ} (hrange : mn ≤ mx) :
    mn ≤ clip_down m 0 mn mx h := by
  unfold clip_down x_down_1 x_down_0
  split_ifs <;> linarith

/-- Counterexample to C8 as stated: with new-data evaluation column [1, 5]
(not constant, mean 3, so the constant-covariate check passes and no failure
is raised) and a constant honest column [3, 3] (standard deviation 0, min =
max = 3), the up and down values coincide after range-clipping at 3, yet the
coincidence adjustment leaves both at 3: the gap is not inflated at all —
0.5·window·sd = 0 is added — and the pipeline returns the coincident pair. -/
theorem margin_coincide_not_inflated_cex :
    clip_up 3 0 3 3 (1/10) = clip_down 3 0 3 3 (1/10) ∧
    margin_updown 3 0 3 3 (1/10) = (3, 3) ∧
    margin_perturbations [[1, 5]] [[3, 3]] [0] (1/10) = Except.ok [(3, 3)] := by
  refine ⟨?_, ?_, ?_⟩
  · norm_num [clip_up, clip_down, x_up_0, x_up_1, x_down_0, x_down_1]
  · norm_num [margin_updown, adjust_updown, clip_up, clip_down, x_up_0,
      x_up_1, x_down_0, x_down_1]
  · norm_num [margin_perturbations, margin_constant_check, n_unique,
      List.insertionSort, List.orderedInsert, margin_updown, adjust_updown,
      clip_up, clip_down, x_up_0, x_up_1, x_down_0, x_down_1, col_mean,
      col_min, col_max, List.range_succ]

/-- C8 amended: coincidence of the up- and down-perturbed values after
range-clipping happens exactly when the covariate's honest-sample standard
deviation is zero; in that case the adjustment step (which extends only the
up side, by 0.5·window·sd, before re-clipping) adds zero, so the coincident
pair is returned unchanged and no failure is raised at this stage — the only
failure in margin is the constant-evaluation-covariate error, raised before
the perturbation is computed. -/
theorem margin_coincide_iff_sd_zero (m s mn mx h : ℚ) (hh : 0 < h)
    (hs : 0 ≤ s) (hrange : mn ≤ mx) :
    (clip_up m s mn mx h = clip_down m s mn mx h ↔ s = 0) ∧
    (s = 0 → margin_updown m s mn mx h
        = (clip_up m s mn mx h, clip_down m s mn mx h)) := by
  constructor
  · constructor
    · intro hcoin
      by_contra hne
      have hs' : 0 < s := lt_of_le_of_ne hs (Ne.symm hne)
      have hts : 0 < h * s := mul_pos hh hs'
      unfold clip_up clip_down x_up_1 x_down_1 x_up_0 x_down_0 at hcoin
      split_ifs at hcoin <;> linarith
    · intro hs0
      subst hs0
      unfold clip_up clip_down x_up_1 x_down_1 x_up_0 x_down_0
      simp only [mul_zero, add_zero, sub_zero]
      split_ifs <;> linarith
  · intro hs0
    subst hs0
    have hcoin : clip_up m 0 mn mx h = clip_down m 0 mn mx h := by
      unfold clip_up clip_down x_up_1 x_down_1 x_up_0 x_down_0
      simp only [mul_zero, add_zero, sub_zero]
      split_ifs <;> linarith
    have hle : clip_up m 0 mn mx h ≤ mx := clip_up_le_max hrange
    have hge : mn ≤ clip_down m 0 mn mx h := clip_down_ge_min hrange
    rw [margin_updown, adjust_updown, if_pos hcoin]
    simp only [mul_zero, zero_div, add_zero, sub_zero]
    have hnotgt : ¬ clip_up m 0 mn mx h > clip_down m 0 mn mx h := by
      rw [hcoin]
      exact lt_irrefl _
    rw [if_neg hnotgt, if_pos hcoin]
    rw [if_neg hnotgt, if_pos hcoin]
    rw [Prod.mk.injEq]
    constructor
    · split_ifs with h1
      · rfl
      · linarith
    · split_ifs with h1
      · rfl
      · linarith

/-- Witness for the amended C8 statement at concrete parameters. -/
theorem margin_coincide_iff_sd_zero_witness :
    ((0 : ℚ) < 1/2 ∧ (0 : ℚ) ≤ 0 ∧ (0 : ℚ) ≤ 2) ∧
    ((clip_up (1/2) 0 0 2 (1/2) = clip_down (1/2) 0 0 2 (1/2) ↔ (0 : ℚ) = 0) ∧
     ((0 : ℚ) = 0 → margin_updown (1/2) 0 0 2 (1/2)
        = (clip_up (1/2) 0 0 2 (1/2), clip_down (1/2) 0 0 2 (1/2)))) :=
  ⟨⟨by norm_num, le_refl 0, by norm_num⟩,
    margin_coincide_iff_sd_zero (1/2) 0 0 2 (1/2) (by norm_num) (le_refl 0) (by norm_num)⟩

/-! ### Helper lemmas for the variance estimator -/

theorem honest_variance_last_eq_spec_Var (probs : ℕ → ℕ → ℚ)
    (W : ℕ → ℕ → ℕ → ℚ) (Y : ℕ → ℕ → ℚ) (nclass n m cls i : ℕ)
    (h1 : 1 ≤ cls) :
    honest_variance_last probs W Y nclass n m cls i
      = spec_Var probs W Y nclass n m cls i := by
  by_cases hcn : cls = nclass
  · simp [honest_variance_last, spec_Var, hcn]
  · have h0 : cls ≠ 0 := by omega
    simp only [honest_variance_last, spec_Var, honest_variance_cls,
      honest_multi_demeaned, honest_multi, honest_pred_mean, hcn, h0,
      if_false, or_self, if_neg, not_false_iff, or_false]
    ring

theorem honest_variance_first_eq_spec_Var (probs : ℕ → ℕ → ℚ)
    (W : ℕ → ℕ → ℕ → ℚ) (Y : ℕ → ℕ → ℚ) (nclass n m cls i : ℕ)
    (h1 : 1 ≤ cls) (h2 : cls ≤ nclass) :
    honest_variance_first probs W Y n m cls i
      = spec_Var probs W Y nclass n m (cls - 1) i := by
  by_cases hc1 : cls = 1
  · simp [honest_variance_first, spec_Var, hc1]
  · have hA : cls - 1 ≠ 0 := by omega
    have hB : cls - 1 ≠ nclass := by omega
    simp only [honest_variance_first, spec_Var, honest_variance_cls,
      honest_multi_demeaned, honest_multi, honest_pred_mean, hc1, hA, hB,
      if_false, or_self, not_false_iff, or_false]
    ring

theorem honest_covariance_eq_spec_Cov (probs : ℕ → ℕ → ℚ)
    (W : ℕ → ℕ → ℕ → ℚ) (Y : ℕ → ℕ → ℚ) (nclass n m cls i : ℕ)
    (h1 : 1 ≤ cls) (h2 : cls ≤ nclass) :
    honest_covariance probs W Y nclass n m cls i
      = spec_Cov probs W Y nclass n m cls i := by
  have h0 : cls ≠ 0 := by omega
  by_cases hc1 : cls = 1
  · simp [honest_covariance, spec_Cov, demeaned_0_first, spec_demeaned, hc1]
  · have hA : cls - 1 ≠ 0 := by omega
    have hB : cls - 1 ≠ nclass := by omega
    by_cases hcn : cls = nclass
    · simp [honest_covariance, spec_Cov, demeaned_0_last, spec_demeaned, hcn, hA, hB]
    · simp only [honest_covariance, spec_Cov, demeaned_0_first, demeaned_0_last,
        spec_demeaned, honest_multi_demeaned, honest_multi, honest_pred_mean,
        hc1, hcn, h0, hA, hB, if_false, or_self, not_false_iff, or_false]
      ring

/-- C2: the per-class variance assembled by honest_variance equals
Var_k + Var_{k-1} − Cov_k for every cut-point class k = 1..nclass, where
Var_k = (n/(n−1))·Σ_j (W_k[i,j]·y_k[j] − p_k[i]/n)², Cov_k =
2·(n/(n−1))·Σ_j d_{k−1}[i,j]·d_k[i,j] with d the de-meaned matrices, and the
boundary cut-points k = 0 and k = nclass contribute exactly zero variance
and zero covariance. -/
theorem honest_variance_final_eq_spec (probs : ℕ → ℕ → ℚ)
    (W : ℕ → ℕ → ℕ → ℚ) (Y : ℕ → ℕ → ℚ) (nclass n m cls i : ℕ)
    (h1 : 1 ≤ cls) (h2 : cls ≤ nclass) :
    honest_variance_final probs W Y nclass n m cls i
      = spec_Var probs W Y nclass n m cls i
        + spec_Var probs W Y nclass n m (cls - 1) i
        - spec_Cov probs W Y nclass n m cls i := by
  rw [honest_variance_final,
    honest_variance_last_eq_spec_Var probs W Y nclass n m cls i h1,
    honest_variance_first_eq_spec_Var probs W Y nclass n m cls i h1 h2,
    honest_covariance_eq_spec_Cov probs W Y nclass n m cls i h1 h2]

/-- Witness for C2 at concrete inputs (nclass = 3, n = 2, m = 2, k = 2). -/
theorem honest_variance_final_eq_spec_witness :
    (1 ≤ 2 ∧ 2 ≤ 3) ∧
    honest_variance_final probs_ex weights_ex outcome_ex 3 2 2 2 0
      = spec_Var probs_ex weights_ex outcome_ex 3 2 2 2 0
        + spec_Var probs_ex weights_ex outcome_ex 3 2 2 1 0
        - spec_Cov probs_ex weights_ex outcome_ex 3 2 2 2 0 :=
  ⟨⟨by norm_num, by norm_num⟩,
    honest_variance_final_eq_spec probs_ex weights_ex outcome_ex 3 2 2 2 0
      (by norm_num) (by norm_num)⟩

/-! ### Helper lemmas for the argsort reassembly -/

theorem map_getD_range (l : List ℕ) (d : ℕ) :
    (List.range l.length).map (fun j => l.getD j d) = l := by
  apply List.ext_getElem
  · simp
  · intro i h1 h2
    simp only [List.getElem_map, List.getElem_range]
    exact List.getD_eq_getElem l d h2

theorem argsort_perm (l : List ℕ) : (argsort l).Perm (List.range l.length) :=
  List.perm_insertionSort _ _

theorem argsort_length (l : List ℕ) : (argsort l).length = l.length := by
  rw [(argsort_perm l).length_eq, List.length_range]

theorem argsort_key_sorted (l : List ℕ) :
    List.Pairwise (fun x y => l.getD x 0 ≤ l.getD y 0) (argsort l) := by
  haveI : IsTotal ℕ (fun x y => l.getD x 0 ≤ l.getD y 0) :=
    ⟨fun x y => le_total _ _⟩
  haveI : IsTrans ℕ (fun x y => l.getD x 0 ≤ l.getD y 0) :=
    ⟨fun x y z hxy hyz => le_trans hxy hyz⟩
  exact List.sorted_insertionSort _ _

theorem argsort_map_key (l : List ℕ) (hperm : l.Perm (List.range l.length)) :
    (argsort l).map (fun j => l.getD j 0) = List.range l.length := by
  have hp : ((argsort l).map (fun j => l.getD j 0)).Perm (List.range l.length) := by
    have p1 : ((argsort l).map (fun j => l.getD j 0)).Perm
        ((List.range l.length).map (fun j => l.getD j 0)) :=
      (argsort_perm l).map _
    rw [map_getD_range l 0] at p1
    exact p1.trans hperm
  have hs1 : List.Sorted (fun a b : ℕ => a ≤ b) ((argsort l).map (fun j => l.getD j 0)) :=
    List.pairwise_map.mpr (argsort_key_sorted l)
  have hs2 : List.Sorted (fun a b : ℕ => a ≤ b) (List.range l.length) :=
    (List.pairwise_lt_range l.length).imp le_of_lt
  exact @List.eq_of_perm_of_sorted ℕ (fun a b => a ≤ b) _ _ _ hp hs1 hs2

theorem argsort_getD_key (l : List ℕ) (hperm : l.Perm (List.range l.length))
    (j : ℕ) (hj : j < l.length) :
    l.getD ((argsort l).getD j 0) 0 = j := by
  have hj1 : j < (argsort l).length := by
    rw [argsort_length]
    exact hj
  have hj2 : j < ((argsort l).map (fun x => l.getD x 0)).length := by
    rw [List.length_map]
    exact hj1
  have h1 : ((argsort l).map (fun x => l.getD x 0))[j]
      = l.getD (argsort l)[j] 0 := List.getElem_map _
  have h2 : ((argsort l).map (fun x => l.getD x 0))[j] = j := by
    have := argsort_map_key l hperm
    rw [List.getElem_of_eq this hj2, List.getElem_range]
  rw [List.getD_eq_getElem (argsort l) 0 hj1, ← h1, h2]

theorem argsort_inverse (l : List ℕ) (hperm : l.Perm (List.range l.length))
    (r : ℕ) (hr : r < l.length) :
    (argsort l).getD (l.getD r 0) 0 = r := by
  have hnodup : l.Nodup := (hperm.nodup_iff).mpr (List.nodup_range _)
  have hval : l.getD r 0 < l.length := by
    have hmem : l.getD r 0 ∈ l := by
      rw [List.getD_eq_getElem l 0 hr]
      exact List.getElem_mem hr
    have h := hperm.mem_iff.mp hmem
    rwa [List.mem_range] at h
  have hval1 : l.getD r 0 < (argsort l).length := by
    rw [argsort_length]
    exact hval
  have hb_lt : (argsort l).getD (l.getD r 0) 0 < l.length := by
    have hmem : (argsort l).getD (l.getD r 0) 0 ∈ argsort l := by
      rw [List.getD_eq_getElem _ _ hval1]
      exact List.getElem_mem hval1
    have h := (argsort_perm l).mem_iff.mp hmem
    rwa [List.mem_range] at h
  have hkey : l.getD ((argsort l).getD (l.getD r 0) 0) 0 = l.getD r 0 :=
    argsort_getD_key l hperm (l.getD r 0) hval
  have h1 : l[(argsort l).getD (l.getD r 0) 0] = l[r] := by
    rw [← List.getD_eq_getElem l 0 hb_lt, ← List.getD_eq_getElem l 0 hr]
    exact hkey
  exact hnodup.getElem_inj_iff.mp h1

theorem sort_rows_by_restore (A : List (List ℚ)) (l : List ℕ)
    (_hlen : A.length = l.length) (hperm : l.Perm (List.range l.length))
    (r : ℕ) (hr : r < l.length) :
    (sort_rows_by A l).getD (l.getD r 0) [] = A.getD r [] := by
  have hval : l.getD r 0 < (argsort l).length := by
    rw [argsort_length]
    have hmem : l.getD r 0 ∈ l := by
      rw [List.getD_eq_getElem l 0 hr]
      exact List.getElem_mem hr
    have h := hperm.mem_iff.mp hmem
    rwa [List.mem_range] at h
  have hval2 : l.getD r 0 < (sort_rows_by A l).length := by
    rw [sort_rows_by, np_take, List.length_map]
    exact hval
  rw [List.getD_eq_getElem _ _ hval2]
  have hstep : (sort_rows_by A l)[l.getD r 0]
      = A.getD (argsort l)[l.getD r 0] [] := by
    simp only [sort_rows_by, np_take, List.getElem_map]
  rw [hstep, ← List.getD_eq_getElem (argsort l) 0 hval,
    argsort_inverse l hperm r hr]

theorem sort_rows_restore_left (A B : List (List ℚ)) (l1 l2 : List ℕ)
    (hA : A.length = l1.length) (hB : B.length = l2.length)
    (hperm : (l1 ++ l2).Perm (List.range (l1 ++ l2).length))
    (r : ℕ) (hr : r < l1.length) :
    (sort_rows_by (A ++ B) (l1 ++ l2)).getD (l1.getD r 0) [] = A.getD r [] := by
  have hlen : (A ++ B).length = (l1 ++ l2).length := by
    simp [hA, hB]
  have hr' : r < (l1 ++ l2).length := by
    rw [List.length_append]
    omega
  have hrA : r < A.length := by
    rw [hA]
    exact hr
  have hrAB : r < (A ++ B).length := by
    rw [List.length_append]
    omega
  have e1 : (l1 ++ l2).getD r 0 = l1.getD r 0 := by
    rw [List.getD_eq_getElem _ _ hr', List.getElem_append_left hr,
      List.getD_eq_getElem _ _ hr]
  have e2 : (A ++ B).getD r [] = A.getD r [] := by
    rw [List.getD_eq_getElem _ _ hrAB, List.getElem_append_left hrA,
      List.getD_eq_getElem _ _ hrA]
  have h := sort_rows_by_restore (A ++ B) (l1 ++ l2) hlen hperm r hr'
  rw [e1, e2] at h
  exact h

theorem sort_rows_restore_right (A B : List (List ℚ)) (l1 l2 : List ℕ)
    (hA : A.length = l1.length) (hB : B.length = l2.length)
    (hperm : (l1 ++ l2).Perm (List.range (l1 ++ l2).length))
    (r : ℕ) (hr : r < l2.length) :
    (sort_rows_by (A ++ B) (l1 ++ l2)).getD (l2.getD r 0) [] = B.getD r [] := by
  have hlen : (A ++ B).length = (l1 ++ l2).length := by
    simp [hA, hB]
  have hr' : l1.length + r < (l1 ++ l2).length := by
    rw [List.length_append]
    omega
  have hrB : r < B.length := by
    rw [hB]
    exact hr
  have hrAB : A.length + r < (A ++ B).length := by
    rw [List.length_append]
    omega
  have e1 : (l1 ++ l2).getD (l1.length + r) 0 = l2.getD r 0 := by
    rw [List.getD_eq_getElem _ _ hr',
      List.getElem_append_right (by omega : l1.length ≤ l1.length + r)]
    have hidx : l1.length + r - l1.length = r := by omega
    simp only [hidx]
    rw [List.getD_eq_getElem _ _ hr]
  have e2 : (A ++ B).getD (l1.length + r) [] = B.getD r [] := by
    have hAB' : l1.length + r < (A ++ B).length := by
      rw [List.length_append, hA]
      omega
    rw [List.getD_eq_getElem _ _ hAB',
      List.getElem_append_right (by omega : A.length ≤ l1.length + r)]
    have hidx2 : l1.length + r - A.length = r := by omega
    simp only [hidx2]
    rw [List.getD_eq_getElem _ _ hrB]
  have h := sort_rows_by_restore (A ++ B) (l1 ++ l2) hlen hperm
    (l1.length + r) hr'
  rw [e1, e2] at h
  exact h

theorem honest_variance_rows_length (probs : ℕ → ℕ → ℚ)
    (W : ℕ → ℕ → ℕ → ℚ) (Y : ℕ → ℕ → ℚ) (nclass m : ℕ) (idx : List ℕ) :
    (honest_variance_rows probs W Y nclass m idx).length = idx.length := by
  rw [honest_variance_rows, List.length_map, List.length_range]

/-- C6: with honesty splitting, the honest-subset and training-subset
variances are computed by independent honest_variance calls whose n/(n-1)
scaling uses each subset's own sample size (visible in fit_variance, which
passes ind_est.length resp. ind_tr.length as n), and the reordering of the
stacked (honest, train) block by the argsort of the concatenated index
partition assigns to every original observation index exactly the variance
row computed for it inside its own subset. -/
theorem fit_variance_restores_order (probs : ℕ → ℕ → ℚ)
    (W : ℕ → ℕ → ℕ → ℚ) (Y : ℕ → ℕ → ℚ) (nclass m : ℕ)
    (ind_est ind_tr : List ℕ)
    (hperm : (ind_est ++ ind_tr).Perm (List.range (ind_est ++ ind_tr).length)) :
    (∀ r, r < ind_est.length →
      (fit_variance probs W Y nclass m ind_est ind_tr).getD (ind_est.getD r 0) []
        = (honest_variance_rows probs W Y nclass m ind_est).getD r []) ∧
    (∀ r, r < ind_tr.length →
      (fit_variance probs W Y nclass m ind_est ind_tr).getD (ind_tr.getD r 0) []
        = (honest_variance_rows probs W Y nclass m ind_tr).getD r []) := by
  have hA := honest_variance_rows_length probs W Y nclass m ind_est
  have hB := honest_variance_rows_length probs W Y nclass m ind_tr
  constructor
  · intro r hr
    exact sort_rows_restore_left _ _ ind_est ind_tr hA hB hperm r hr
  · intro r hr
    exact sort_rows_restore_right _ _ ind_est ind_tr hA hB hperm r hr

/-- Witness for C6 with partition ind_est = [2, 0], ind_tr = [1] of three
observations: original observation 2 receives the first honest-subset row. -/
theorem fit_variance_restores_order_witness :
    ((([2, 0] : List ℕ) ++ [1]).Perm (List.range (([2, 0] : List ℕ) ++ [1]).length)) ∧
    (fit_variance probs_ex weights_ex outcome_ex 2 1 [2, 0] [1]).getD 2 []
      = (honest_variance_rows probs_ex weights_ex outcome_ex 2 1 [2, 0]).getD 0 [] :=
  ⟨by decide,
    (fit_variance_restores_order probs_ex weights_ex outcome_ex 2 1 [2, 0] [1]
      (by decide)).1 0 (by decide)⟩

/-- C10: calling predict with a covariate matrix element-wise equal to the
fitted one gives exactly the result of calling it with X=None — the stored
in-sample class probabilities and variances — for every possible new-data
pipeline, so the new-data weight/prediction path is never run. -/
theorem predict_fit_X_eq_predict_none (st : OrfFitted)
    (newdata : List (List ℚ) → List (List ℚ) × List (List ℚ)) :
    predict st newdata (some st.X_fit) = predict st newdata none ∧
    predict st newdata none = (st.probs, st.variance) := by
  constructor
  · simp [predict, predict_X_arg]
  · rfl

end Orf
